import Mathlib

/-
Shallow embedding of the spectral-analysis core of the `pwmfft` repository
(file `src/pwmfft/oscifft.py`).

Modelling choices:
* Floating-point values are modelled exactly.  The post-transform query
  methods of `DFTFFTProcessor` only perform field arithmetic and comparisons,
  so they are embedded generically over a `LinearOrderedField` and
  instantiated at `ℚ` for concrete, decidable witnesses.
* The transform itself (`numpy.fft.fft` / `ifft` / `fftfreq`) is embedded
  over `ℝ` and `ℂ` with the exact DFT sums that the numpy documentation
  specifies.
* Python exceptions are modelled with `Except String`; Python `None` with
  `Option`.  `numpy` out-of-range indexing never occurs on the inputs treated
  below (it is proved in bounds where it matters), so list access uses
  `List.getD` with a junk default.
-/

/-- Index of the first minimum of a list, as computed by `numpy.argmin`:
the least index attaining the minimal value (numpy breaks ties by the lowest
index).  `argmin []` is junk (numpy raises on an empty array); every use
below is guarded by nonemptiness. -/
def argmin {α : Type} [LinearOrder α] : List α → ℕ
  | [] => 0
  | [_] => 0
  | x :: y :: t =>
    if (y :: t).getD (argmin (y :: t)) y < x then argmin (y :: t) + 1 else 0

/-- Python `int()` applied to a fraction: truncation toward zero
(`int(2.7) = 2`, `int(-2.7) = -2`). -/
def pyInt {α : Type} [LinearOrderedField α] [FloorRing α] (q : α) : ℤ :=
  if 0 ≤ q then ⌊q⌋ else -⌊-q⌋

/-- Post-transform state of `DFTFFTProcessor` as read by the query methods:
the attributes `_frequency_for_real`, `_amplitude_real`, `_max_frequency`
and `_min_frequency` set by `dft` (oscifft.py lines 260-267). -/
structure SpectrumState (α : Type) where
  frequency_for_real : List α
  amplitude_real : List α
  max_frequency : α
  min_frequency : α

/-- Embeds `DFTFFTProcessor.get_frequency_component` (oscifft.py lines
271-286): `near_index = np.argmin((self._frequency_for_real - f)**2)`,
then `return self._amplitude_real[near_index]`. -/
def get_frequency_component {α : Type} [LinearOrderedField α]
    (s : SpectrumState α) (f : α) : α :=
  let near_index := argmin (s.frequency_for_real.map fun x => (x - f) ^ 2)
  s.amplitude_real.getD near_index 0

/-- Nearest-bin index used by `get_frequency_component` and
`get_frequency_components`: `np.argmin((self._frequency_for_real - f)**2)`. -/
def nearIndex {α : Type} [LinearOrderedField α] (s : SpectrumState α) (f : α) : ℕ :=
  argmin (s.frequency_for_real.map fun x => (x - f) ^ 2)

/-- Embeds `DFTFFTProcessor.get_frequency_components` (oscifft.py lines
288-309): two nearest-bin indices; if they coincide the method returns the
single amplitude at `a` (as `np.array(scalar)`, modelled as a one-element
list), otherwise the Python slice `self._amplitude_real[start:end]`. -/
def get_frequency_components {α : Type} [LinearOrderedField α]
    (s : SpectrumState α) (a b : α) : List α :=
  let start_near_index := argmin (s.frequency_for_real.map fun x => (x - a) ^ 2)
  let end_near_index := argmin (s.frequency_for_real.map fun x => (x - b) ^ 2)
  if start_near_index = end_near_index then [get_frequency_component s a]
  else (s.amplitude_real.drop start_near_index).take (end_near_index - start_near_index)

/-- Embeds `DFTFFTProcessor.get_frequency_contents` (oscifft.py lines
311-344): when `insert_invalid_contents` is false and
`max_order * fundamental_frequency > self._max_frequency`, the order is
clamped to `int(self._max_frequency / fundamental_frequency)`; then the
normalized percentage array over orders `0..max_order` is returned. -/
def get_frequency_contents {α : Type} [LinearOrderedField α] [FloorRing α]
    (s : SpectrumState α) (fundamental_frequency : α) (max_order : ℤ)
    (insert_invalid_contents : Bool) : List α :=
  let mo : ℤ :=
    if insert_invalid_contents = false ∧
        (max_order : α) * fundamental_frequency > s.max_frequency then
      pyInt (s.max_frequency / fundamental_frequency)
    else max_order
  ((List.range (mo + 1).toNat).map fun i : ℕ =>
      get_frequency_component s (fundamental_frequency * (i : α))).map
    fun x => x / get_frequency_component s fundamental_frequency * 100

/-- Sum of squares of a list, `(arr**2).sum()` in numpy. -/
def sumSq {α : Type} [LinearOrderedField α] (l : List α) : α :=
  (l.map fun x => x ^ 2).sum

/-- Embeds `DFTFFTProcessor.get_total_harmonic_distribution` (oscifft.py
lines 346-367): `np.sqrt((contents[2:]**2).sum())` where `contents` is
`get_frequency_contents(fundamental_frequency, 99999, False)`. -/
noncomputable def get_total_harmonic_distribution (s : SpectrumState ℚ)
    (fundamental_frequency : ℚ) : ℝ :=
  Real.sqrt
    ((sumSq ((get_frequency_contents s fundamental_frequency 99999 false).drop 2) : ℚ) : ℝ)

/-- Spec-side THD, stated for comparison with the code.  The spec reads:
the harmonic content is computed with "`maxOrder` set to the largest value
such that `allowOutOfRange=false` naturally bounds it to the available
spectrum (i.e., compute up to the analysis-range limit, not an arbitrary
fixed cap)" — that largest order within the analysis range is
`⌊maxFrequency / fundamental⌋`. -/
noncomputable def spec_total_harmonic_distribution (s : SpectrumState ℚ)
    (fundamental_frequency : ℚ) : ℝ :=
  Real.sqrt
    ((sumSq ((get_frequency_contents s fundamental_frequency
        ⌊s.max_frequency / fundamental_frequency⌋ false).drop 2) : ℚ) : ℝ)

/-- State of `OscilloCsvLoader` after a load (oscifft.py lines 28-92). -/
structure OscilloCsvLoader where
  second_values : List ℚ
  voltage_values1 : List ℚ
  voltage_values2 : List ℚ
  has_2ch : Bool

/-- Embeds `OscilloCsvLoader.load_csv` (oscifft.py lines 35-76) acting on the
already-parsed, transposed numeric table (the value of `_matrix_tmp`, a list
of columns).  `shape[0] == 2` keeps two columns single-channel; any other
column count takes the `else` branch, which sets `_has_2ch = True` and reads
columns `[0]`, `[1]`, `[2]` — a Python `IndexError` (not a format check) when
fewer than three columns exist. -/
def load_csv (matrix : List (List ℚ)) : Except String OscilloCsvLoader :=
  if matrix.length = 2 then
    .ok ⟨matrix.getD 0 [], matrix.getD 1 [], [], false⟩
  else
    match matrix with
    | c0 :: c1 :: c2 :: _ => .ok ⟨c0, c1, c2, true⟩
    | _ => .error "IndexError"

/-- Embeds `DFTFFTProcessor.from_csv_loader` (oscifft.py lines 176-206).
The produced processor is represented by its constructor arguments
`(second_values, voltage_values)`.  For `ch == 2` without channel-2 data the
method raises `ValueError`; for any `ch` other than `1` or `2` the Python
function body falls through and implicitly returns `None`. -/
def from_csv_loader (loader : OscilloCsvLoader) (ch : ℤ) :
    Except String (Option (List ℚ × List ℚ)) :=
  if ch = 1 then .ok (some (loader.second_values, loader.voltage_values1))
  else if ch = 2 then
    if loader.has_2ch = false then .error "ValueError"
    else .ok (some (loader.second_values, loader.voltage_values2))
  else .ok none

/-- Maximum of a list (`np.max`); junk default for the empty list, on which
numpy raises. -/
def maxD {α : Type} [LinearOrder α] (d : α) : List α → α
  | [] => d
  | x :: t => t.foldl max x

/-- Minimum of a list (`np.min`); junk default for the empty list. -/
def minD {α : Type} [LinearOrder α] (d : α) : List α → α
  | [] => d
  | x :: t => t.foldl min x

/-- Embeds `numpy.fft.fftfreq(n, d)`: the bin `k` holds `k/(d*n)` for
`k < (n+1)/2` and `(k-n)/(d*n)` for the mirrored negative half. -/
def fftfreq {α : Type} [LinearOrderedField α] (n : ℕ) (d : α) : List α :=
  List.ofFn fun k : Fin n =>
    if (k : ℕ) < (n + 1) / 2 then ((k : ℕ) : α) / (d * n)
    else (((k : ℕ) : α) - n) / (d * n)

/-- Embeds `numpy.fft.fft`: `A_k = Σ_m a_m · exp(-2πi·m·k/n)`. -/
noncomputable def fftC (x : List ℂ) : List ℂ :=
  List.ofFn fun k : Fin x.length =>
    ∑ n : Fin x.length,
      x.get n *
        Complex.exp (-2 * (Real.pi : ℂ) * Complex.I * ((k : ℕ) : ℂ) * ((n : ℕ) : ℂ) /
          (x.length : ℂ))

/-- Embeds `numpy.fft.ifft`: `a_m = (1/n) · Σ_k A_k · exp(2πi·m·k/n)`. -/
noncomputable def ifftC (x : List ℂ) : List ℂ :=
  List.ofFn fun m : Fin x.length =>
    (∑ k : Fin x.length,
        x.get k *
          Complex.exp (2 * (Real.pi : ℂ) * Complex.I * ((k : ℕ) : ℂ) * ((m : ℕ) : ℂ) /
            (x.length : ℂ))) /
      (x.length : ℂ)

/-- Full state of a `DFTFFTProcessor` (oscifft.py lines 147-174), over the
exact reals. -/
structure RState where
  second_values : List ℝ
  voltage_values : List ℝ
  frequency_for_complex : List ℝ
  frequency_for_real : List ℝ
  amplitude_complex : List ℂ
  amplitude_real : List ℝ
  max_frequency : ℝ
  min_frequency : ℝ
  number_of_sample : ℕ
  sampling_time : ℝ
  sampling_period : ℝ

/-- Projection of the full processor state onto the fragment read by the
query methods. -/
def RState.spectrum (s : RState) : SpectrumState ℝ :=
  ⟨s.frequency_for_real, s.amplitude_real, s.max_frequency, s.min_frequency⟩

/-- Embeds `DFTFFTProcessor.dft` (oscifft.py lines 246-269) applied to a
processor freshly constructed from `(second_values, voltage_values)`:
sample count, span, period, `fftfreq`, its first half, the extrema of that
half, the complex transform, and the one-sided amplitudes
`np.abs(ac[:N//2]) * 2.0 / N` with the DC entry then halved in place. -/
noncomputable def dft (second_values voltage_values : List ℝ) : RState :=
  let number_of_sample := second_values.length
  let sampling_time := maxD 0 second_values - minD 0 second_values
  let sampling_period := sampling_time / (number_of_sample : ℝ)
  let frequency_for_complex := fftfreq number_of_sample sampling_period
  let frequency_for_real := frequency_for_complex.take (number_of_sample / 2)
  let amplitude_complex := fftC (voltage_values.map Complex.ofReal)
  let amplitude_real :=
    ((amplitude_complex.take (number_of_sample / 2)).map
        fun z => Complex.abs z * 2 / (number_of_sample : ℝ)).modifyHead
      fun x => x / 2
  ⟨second_values, voltage_values, frequency_for_complex, frequency_for_real,
    amplitude_complex, amplitude_real, maxD 0 frequency_for_real,
    minD 0 frequency_for_real, number_of_sample, sampling_time, sampling_period⟩

/-- Truthiness of a numpy array, as invoked by Python boolean operators:
a one-element array yields its element, any other length raises
`ValueError: The truth value of an array ... is ambiguous`. -/
def npTruthy (l : List Bool) : Except String Bool :=
  if l.length = 1 then .ok (l.headD false)
  else .error "ValueError: truth value of an array is ambiguous"

/-- Python scalar `a and b` applied to numpy boolean arrays: evaluate the
truthiness of `a` (raising for arrays of length other than one), return `a`
if falsy and `b` otherwise. -/
def pyAnd (a b : List Bool) : Except String (List Bool) :=
  match npTruthy a with
  | .error e => .error e
  | .ok true => .ok b
  | .ok false => .ok a

/-- Embeds `DFTFFTProcessor.get_particular_frequencies_waveform` (oscifft.py
lines 369-395): element-wise bound conditions on `|frequency_for_complex|`,
combined with the Python scalar `and` (line 391), then
`np.where(mask, amplitude_complex, 0)` and the inverse transform. -/
noncomputable def get_particular_frequencies_waveform (s : RState)
    (min_freq max_freq : ℝ) : Except String (List ℝ × List ℂ) :=
  let upper_conditions := s.frequency_for_complex.map fun x => decide (min_freq ≤ |x|)
  let lower_conditions := s.frequency_for_complex.map fun x => decide (|x| ≤ max_freq)
  match pyAnd upper_conditions lower_conditions with
  | .error e => .error e
  | .ok dones_meet_conditions =>
    .ok (s.second_values,
      ifftC (List.zipWith (fun c z => if c then z else 0) dones_meet_conditions
        s.amplitude_complex))

/-- Concrete post-transform state with four bins and constant amplitude 2,
used as a witness spectrum. -/
def sampleSpectrumA : SpectrumState ℚ :=
  ⟨[0, 1, 2, 3], [2, 2, 2, 2], 3, 0⟩

/-- Concrete post-transform state with two bins and constant amplitude 1,
used to separate the hard-coded THD order cap from the spectrum bound. -/
def sampleSpectrumB : SpectrumState ℚ :=
  ⟨[0, 1], [1, 1], 1, 0⟩

/-- Unfolding equation of `argmin` on a list with at least two elements. -/
theorem argmin_cons_cons {α : Type} [LinearOrder α] (x y : α) (t : List α) :
    argmin (x :: y :: t) =
      if (y :: t).getD (argmin (y :: t)) y < x then argmin (y :: t) + 1 else 0 := rfl

/-- On a nonempty list, `argmin` is a valid index, as with `numpy.argmin`. -/
theorem argmin_lt_length {α : Type} [LinearOrder α] (l : List α) (h : l ≠ []) :
    argmin l < l.length := by
  induction l with
  | nil => exact absurd rfl h
  | cons x t ih =>
    cases t with
    | nil => simp [argmin]
    | cons y t' =>
      rw [argmin_cons_cons]
      by_cases hc : (y :: t').getD (argmin (y :: t')) y < x
      · rw [if_pos hc]
        have := ih (by simp)
        simpa [Nat.succ_lt_succ_iff] using this
      · rw [if_neg hc]
        simp

/-- An in-range `List.getD` does not depend on the default value. -/
theorem getD_default_irrel {α : Type} (l : List α) (i : ℕ) (d d' : α)
    (h : i < l.length) : l.getD i d = l.getD i d' := by
  rw [List.getD_eq_getElem l d h, List.getD_eq_getElem l d' h]

/-- The value at `argmin` is a minimum of the list. -/
theorem argmin_getD_le {α : Type} [LinearOrder α] (l : List α) (h : l ≠ [])
    (d : α) (i : ℕ) (hi : i < l.length) :
    l.getD (argmin l) d ≤ l.getD i d := by
  induction l generalizing i with
  | nil => exact absurd rfl h
  | cons x t ih =>
    cases t with
    | nil =>
      have hz : i = 0 := Nat.lt_one_iff.mp (by simpa using hi)
      subst hz
      simp [argmin]
    | cons y t' =>
      have hlt : argmin (y :: t') < (y :: t').length := argmin_lt_length _ (by simp)
      rw [argmin_cons_cons]
      by_cases hc : (y :: t').getD (argmin (y :: t')) y < x
      · rw [if_pos hc]
        rw [List.getD_cons_succ]
        cases i with
        | zero =>
          rw [List.getD_cons_zero]
          have := hc
          rw [getD_default_irrel _ _ y d hlt] at this
          exact le_of_lt this
        | succ j =>
          rw [List.getD_cons_succ]
          exact ih (by simp) j (by simpa using hi)
      · rw [if_neg hc]
        rw [List.getD_cons_zero]
        cases i with
        | zero => rw [List.getD_cons_zero]
        | succ j =>
          rw [List.getD_cons_succ]
          have hx : x ≤ (y :: t').getD (argmin (y :: t')) d := by
            have := le_of_not_lt hc
            rwa [getD_default_irrel _ _ y d hlt] at this
          exact le_trans hx (ih (by simp) j (by simpa using hi))

/-- Every index before `argmin` holds a strictly larger value: `argmin`
returns the first position of the minimum (the `numpy.argmin` tie-break). -/
theorem argmin_getD_lt_earlier {α : Type} [LinearOrder α] (l : List α) (h : l ≠ [])
    (d : α) (i : ℕ) (hi : i < argmin l) :
    l.getD (argmin l) d < l.getD i d := by
  induction l generalizing i with
  | nil => exact absurd rfl h
  | cons x t ih =>
    cases t with
    | nil => simp [argmin] at hi
    | cons y t' =>
      have hlt : argmin (y :: t') < (y :: t').length := argmin_lt_length _ (by simp)
      rw [argmin_cons_cons] at hi ⊢
      by_cases hc : (y :: t').getD (argmin (y :: t')) y < x
      · rw [if_pos hc] at hi ⊢
        rw [List.getD_cons_succ]
        cases i with
        | zero =>
          rw [List.getD_cons_zero]
          have := hc
          rwa [getD_default_irrel _ _ y d hlt] at this
        | succ j =>
          rw [List.getD_cons_succ]
          exact ih (by simp) j (by simpa using hi)
      · rw [if_neg hc] at hi
        exact absurd hi (Nat.not_lt_zero i)

/-- Comparison of absolute values is comparison of squares, which is why
`argmin((freqs - f)**2)` is a nearest-bin lookup. -/
theorem abs_le_abs_iff_sq (a b : ℚ) : |a| ≤ |b| ↔ a ^ 2 ≤ b ^ 2 := by
  rw [← sq_abs a, ← sq_abs b]
  exact (pow_le_pow_iff_left₀ (abs_nonneg a) (abs_nonneg b) (by norm_num)).symm

/-- Strict version of `abs_le_abs_iff_sq`. -/
theorem abs_lt_abs_iff_sq (a b : ℚ) : |a| < |b| ↔ a ^ 2 < b ^ 2 := by
  rw [← sq_abs a, ← sq_abs b]
  exact (pow_lt_pow_iff_left₀ (abs_nonneg a) (abs_nonneg b) (by norm_num)).symm

/-- `getD` after `map`, for an in-range index. -/
theorem getD_map_of_lt {α β : Type} (g : α → β) (l : List α) (i : ℕ) (d : β)
    (d' : α) (h : i < l.length) : (l.map g).getD i d = g (l.getD i d') := by
  rw [List.getD_eq_getElem _ _ (by simpa using h), List.getD_eq_getElem _ _ h,
    List.getElem_map]

/-- `getD` on `replicate`, for an in-range index. -/
theorem getD_replicate_of_lt {α : Type} (n : ℕ) (c : α) (i : ℕ) (d : α)
    (h : i < n) : (List.replicate n c).getD i d = c := by
  rw [List.getD_eq_getElem _ _ (by simpa using h)]
  simp

/-- Sum of squares of a constant list. -/
theorem sumSq_replicate (m : ℕ) (c : ℚ) : sumSq (List.replicate m c) = m * c ^ 2 := by
  simp [sumSq, List.map_replicate, List.sum_replicate, nsmul_eq_mul]

/-- A map over `range` with constant values is a `replicate`. -/
theorem range_map_const {α : Type} (n : ℕ) (f : ℕ → α) (v : α)
    (h : ∀ i, i < n → f i = v) : (List.range n).map f = List.replicate n v := by
  apply List.eq_replicate_iff.mpr
  constructor
  · simp
  · intro b hb
    obtain ⟨i, hi, rfl⟩ := List.mem_map.mp hb
    exact h i (List.mem_range.mp hi)

/-- The nearest-bin index is in range on a nonempty spectrum. -/
theorem nearIndex_lt_length (s : SpectrumState ℚ) (g : ℚ)
    (hne : s.frequency_for_real ≠ []) :
    nearIndex s g < s.frequency_for_real.length := by
  have := argmin_lt_length (s.frequency_for_real.map fun x => (x - g) ^ 2)
    (by simpa using hne)
  simpa [nearIndex] using this

/-- The bin at `nearIndex` is at minimal absolute distance from the query
frequency. -/
theorem nearIndex_le_dist (s : SpectrumState ℚ) (g : ℚ)
    (hne : s.frequency_for_real ≠ []) (i : ℕ)
    (hi : i < s.frequency_for_real.length) :
    |s.frequency_for_real.getD (nearIndex s g) 0 - g| ≤
      |s.frequency_for_real.getD i 0 - g| := by
  have hmne : (s.frequency_for_real.map fun x => (x - g) ^ 2) ≠ [] := by simpa using hne
  have hj : nearIndex s g < s.frequency_for_real.length := nearIndex_lt_length s g hne
  have h1 := argmin_getD_le (s.frequency_for_real.map fun x => (x - g) ^ 2) hmne 0
    i (by simpa using hi)
  have hnear : nearIndex s g = argmin (s.frequency_for_real.map fun x => (x - g) ^ 2) := rfl
  rw [← hnear, getD_map_of_lt _ _ _ _ 0 hj, getD_map_of_lt _ _ _ _ 0 hi] at h1
  exact (abs_le_abs_iff_sq _ _).mpr h1

/-- Bins before `nearIndex` are at strictly larger distance: equidistant
ties resolve to the lowest index. -/
theorem nearIndex_lt_dist_earlier (s : SpectrumState ℚ) (g : ℚ)
    (hne : s.frequency_for_real ≠ []) (i : ℕ) (hi : i < nearIndex s g) :
    |s.frequency_for_real.getD (nearIndex s g) 0 - g| <
      |s.frequency_for_real.getD i 0 - g| := by
  have hmne : (s.frequency_for_real.map fun x => (x - g) ^ 2) ≠ [] := by simpa using hne
  have hj : nearIndex s g < s.frequency_for_real.length := nearIndex_lt_length s g hne
  have hnear : nearIndex s g = argmin (s.frequency_for_real.map fun x => (x - g) ^ 2) := rfl
  have h1 := argmin_getD_lt_earlier (s.frequency_for_real.map fun x => (x - g) ^ 2) hmne 0
    i (by rw [← hnear]; exact hi)
  have hij : i < s.frequency_for_real.length := lt_trans hi hj
  rw [← hnear, getD_map_of_lt _ _ _ _ 0 hj, getD_map_of_lt _ _ _ _ 0 hij] at h1
  exact (abs_lt_abs_iff_sq _ _).mpr h1

/-- On a spectrum with constant one-sided amplitudes, every nearest-bin
lookup returns that constant. -/
theorem get_frequency_component_const (s : SpectrumState ℚ) (c : ℚ)
    (hamp : s.amplitude_real = List.replicate s.frequency_for_real.length c)
    (hne : s.frequency_for_real ≠ []) (f : ℚ) :
    get_frequency_component s f = c := by
  have hj : argmin (s.frequency_for_real.map fun x => (x - f) ^ 2) <
      s.frequency_for_real.length := by
    have := argmin_lt_length (s.frequency_for_real.map fun x => (x - f) ^ 2)
      (by simpa using hne)
    simpa using this
  simp only [get_frequency_component]
  rw [hamp]
  exact getD_replicate_of_lt _ _ _ _ hj

/-- On a spectrum with constant nonzero amplitudes, `get_frequency_contents`
is an all-100 array whenever the order clamp does not fire. -/
theorem get_frequency_contents_const (s : SpectrumState ℚ) (c f : ℚ) (n : ℤ)
    (b : Bool)
    (hamp : s.amplitude_real = List.replicate s.frequency_for_real.length c)
    (hne : s.frequency_for_real ≠ []) (hc : c ≠ 0)
    (hcl : ¬(b = false ∧ (n : ℚ) * f > s.max_frequency)) :
    get_frequency_contents s f n b = List.replicate (n + 1).toNat 100 := by
  have hcomp : ∀ g : ℚ, get_frequency_component s g = c :=
    fun g => get_frequency_component_const s c hamp hne g
  simp only [get_frequency_contents]
  rw [if_neg hcl, List.map_map]
  apply range_map_const
  intro i hi
  simp [Function.comp, hcomp, div_self hc]

/-- C2 counterexample: with fundamental ≤ 0 (here 0 and -1) the harmonic
queries do not fail — there is no `InvalidFundamentalError` or any raise in
`get_frequency_contents` / `get_total_harmonic_distribution` — they return
ordinary values computed by the usual formulas. -/
theorem C2_counterexample :
    get_frequency_contents sampleSpectrumA 0 3 true = [100, 100, 100, 100] ∧
    get_total_harmonic_distribution sampleSpectrumA (-1) = Real.sqrt 999980000 := by
  have hamp : sampleSpectrumA.amplitude_real =
      List.replicate sampleSpectrumA.frequency_for_real.length 2 := rfl
  constructor
  · rw [get_frequency_contents_const sampleSpectrumA 2 0 3 true hamp (by decide)
      (by norm_num) (by simp)]
    rfl
  · unfold get_total_harmonic_distribution
    rw [get_frequency_contents_const sampleSpectrumA 2 (-1) 99999 false hamp (by decide)
      (by norm_num) (by norm_num [sampleSpectrumA])]
    rw [show ((99999 : ℤ) + 1).toNat = 100000 from rfl, List.drop_replicate,
      show (100000 : ℕ) - 2 = 99998 from rfl, sumSq_replicate]
    congr 1
    push_cast
    norm_num

/-- C2 (amended): calls with fundamental frequency ≤ 0 are not rejected; no
invalid-fundamental check exists.  The order clamp cannot fire (the product
`max_order · fundamental` is nonpositive, hence never above a nonnegative
`_max_frequency`), so `get_frequency_contents` returns its full
`(max_order+1)`-length array, and the content array inside
`get_total_harmonic_distribution` likewise has its full 100000 entries. -/
theorem C2_no_fundamental_validation (s : SpectrumState ℚ) (f : ℚ) (n : ℤ)
    (b : Bool) (hf : f ≤ 0) (hn : 0 ≤ n) (hmax : 0 ≤ s.max_frequency) :
    (get_frequency_contents s f n b).length = (n + 1).toNat ∧
    (get_frequency_contents s f 99999 false).length = 100000 := by
  have key : ∀ m : ℤ, 0 ≤ m → ¬((m : ℚ) * f > s.max_frequency) := by
    intro m hm
    apply not_lt.mpr
    refine le_trans ?_ hmax
    exact mul_nonpos_iff.mpr (Or.inl ⟨by exact_mod_cast hm, hf⟩)
  constructor
  · simp only [get_frequency_contents]
    rw [if_neg (by intro hcl; exact key n hn hcl.2)]
    simp
  · simp only [get_frequency_contents]
    rw [if_neg (by intro hcl; exact key 99999 (by norm_num) hcl.2)]
    simp

/-- C2 witness: a concrete nonpositive fundamental on a concrete spectrum
gives a full-length content array instead of an error. -/
theorem C2_witness :
    (-1 : ℚ) ≤ 0 ∧ (get_frequency_contents sampleSpectrumA (-1) 5 true).length = 6 := by
  refine ⟨by norm_num, ?_⟩
  have h := (C2_no_fundamental_validation sampleSpectrumA (-1) 5 true (by norm_num)
    (by norm_num) (by norm_num [sampleSpectrumA])).1
  simpa using h

/-- C3 counterexample: a parsed 4-column table does not fail with a format
error; `load_csv` follows the `else` branch, marks the waveform dual-channel
and silently uses only the first three columns. -/
theorem C3_counterexample :
    load_csv [[1], [2], [3], [4]] = .ok ⟨[1], [2], [3], true⟩ := rfl

/-- C3 (amended): two columns load single-channel; *any* column count other
than two with at least three columns loads dual-channel from the first three
columns (extra columns are silently ignored).  No `DataFormatError` exists:
a 4-column table is accepted, and a table with fewer than two columns hits a
plain `IndexError` in the `else` branch. -/
theorem C3_column_rule (m : List (List ℚ)) (h : 2 ≤ m.length) :
    load_csv m = .ok ⟨m.getD 0 [], m.getD 1 [],
      (if m.length = 2 then [] else m.getD 2 []),
      (if m.length = 2 then false else true)⟩ := by
  by_cases h2 : m.length = 2
  · obtain ⟨a, b, rfl⟩ := List.length_eq_two.mp h2
    simp [load_csv]
  · cases m with
    | nil => simp at h
    | cons c0 m1 =>
      cases m1 with
      | nil => simp at h
      | cons c1 m2 =>
        cases m2 with
        | nil => exact absurd rfl h2
        | cons c2 m3 => simp [load_csv, h2]

/-- C3 witness: a concrete 3-column table loads dual-channel. -/
theorem C3_witness :
    2 ≤ ([[(0:ℚ)], [1], [5]] : List (List ℚ)).length ∧
    load_csv [[(0:ℚ)], [1], [5]] = .ok ⟨[[(0:ℚ)], [1], [5]].getD 0 [],
      [[(0:ℚ)], [1], [5]].getD 1 [],
      (if ([[(0:ℚ)], [1], [5]] : List (List ℚ)).length = 2 then []
        else [[(0:ℚ)], [1], [5]].getD 2 []),
      (if ([[(0:ℚ)], [1], [5]] : List (List ℚ)).length = 2 then false else true)⟩ :=
  ⟨by norm_num, C3_column_rule [[(0:ℚ)], [1], [5]] (by norm_num)⟩

/-- C4 counterexample: the reference THD is *not* always the spec's
spectrum-bounded root-sum-of-squares.  With `maxFrequency = 1` and
fundamental `1/100000` the available spectrum supports orders up to 100000,
but the code's hard-coded request of 99999 orders is below the clamp
threshold, so the code sums 99998 squared entries where the spec-side value
sums 99999 of them. -/
theorem C4_counterexample :
    get_total_harmonic_distribution sampleSpectrumB (1 / 100000) ≠
      spec_total_harmonic_distribution sampleSpectrumB (1 / 100000) := by
  have hamp : sampleSpectrumB.amplitude_real =
      List.replicate sampleSpectrumB.frequency_for_real.length 1 := rfl
  have hfloor : ⌊sampleSpectrumB.max_frequency / (1 / 100000 : ℚ)⌋ = 100000 := by
    rw [show sampleSpectrumB.max_frequency / (1 / 100000 : ℚ) = ((100000 : ℤ) : ℚ) by
      norm_num [sampleSpectrumB]]
    exact Int.floor_intCast _
  unfold get_total_harmonic_distribution spec_total_harmonic_distribution
  rw [hfloor]
  rw [get_frequency_contents_const sampleSpectrumB 1 (1 / 100000) 99999 false hamp
    (by decide) (by norm_num) (by norm_num [sampleSpectrumB])]
  rw [get_frequency_contents_const sampleSpectrumB 1 (1 / 100000) 100000 false hamp
    (by decide) (by norm_num) (by norm_num [sampleSpectrumB])]
  have h1 : ((99999 : ℤ) + 1).toNat = 100000 := rfl
  have h2 : ((100000 : ℤ) + 1).toNat = 100001 := rfl
  rw [h1, h2, List.drop_replicate, List.drop_replicate,
    show (100000 : ℕ) - 2 = 99998 from rfl, show (100001 : ℕ) - 2 = 99999 from rfl,
    sumSq_replicate, sumSq_replicate]
  apply ne_of_lt
  apply Real.sqrt_lt_sqrt
  · positivity
  · push_cast
    norm_num

/-- C4 (amended): whenever the spectrum-derived order bound is below the
hard-coded cap (`maxFrequency < 100000 · fundamental`), the code's THD —
root-sum-of-squares of the content entries from order 2 onward, content
computed with `insert_invalid_contents = False` and requested order 99999 —
coincides with the spec's spectrum-bounded THD. -/
theorem C4_thd_spectrum_bounded (s : SpectrumState ℚ) (f : ℚ) (hf : 0 < f)
    (hmax : 0 ≤ s.max_frequency) (hreg : s.max_frequency < 100000 * f) :
    get_total_harmonic_distribution s f = spec_total_harmonic_distribution s f := by
  have hpy : pyInt (s.max_frequency / f) = ⌊s.max_frequency / f⌋ := by
    unfold pyInt
    rw [if_pos (div_nonneg hmax hf.le)]
  have hcontents : get_frequency_contents s f 99999 false =
      get_frequency_contents s f ⌊s.max_frequency / f⌋ false := by
    simp only [get_frequency_contents]
    by_cases hcl : ((99999 : ℤ) : ℚ) * f > s.max_frequency
    · have hspec : ¬(((⌊s.max_frequency / f⌋ : ℤ) : ℚ) * f > s.max_frequency) := by
        apply not_lt.mpr
        rw [← le_div_iff₀ hf]
        exact Int.floor_le _
      rw [if_pos (by exact ⟨by simp, hcl⟩), if_neg (by intro hx; exact hspec hx.2), hpy]
    · have hge : (99999 : ℚ) ≤ s.max_frequency / f := by
        rw [le_div_iff₀ hf]
        exact le_of_not_lt (by exact_mod_cast hcl)
      have hltf : s.max_frequency / f < 100000 := by
        rw [div_lt_iff₀ hf]
        exact hreg
      have hfloor : ⌊s.max_frequency / f⌋ = 99999 := by
        apply Int.floor_eq_iff.mpr
        constructor
        · exact_mod_cast hge
        · exact_mod_cast hltf
      rw [if_neg (by intro hx; exact hcl hx.2), hfloor]
      rw [if_neg (by intro hx; exact hcl (by exact_mod_cast hx.2))]
  unfold get_total_harmonic_distribution spec_total_harmonic_distribution
  rw [hcontents]

/-- C4 witness: on a concrete spectrum with `maxFrequency = 3` and
fundamental 1, the code THD equals the spec-side spectrum-bounded THD. -/
theorem C4_witness :
    (0 : ℚ) < 1 ∧ get_total_harmonic_distribution sampleSpectrumA 1 =
      spec_total_harmonic_distribution sampleSpectrumA 1 :=
  ⟨by norm_num, C4_thd_spectrum_bounded sampleSpectrumA 1 (by norm_num)
    (by norm_num [sampleSpectrumA]) (by norm_num [sampleSpectrumA])⟩

/-- C5: with `insert_invalid_contents = False`, a positive fundamental and a
nonnegative requested order, the effective order is clamped to
`⌊maxFrequency / fundamental⌋` exactly when `max_order · fundamental`
exceeds `maxFrequency`; the result has length `effective + 1`, entry `i`
equals `get_frequency_component(i · fundamental) /
get_frequency_component(fundamental) · 100`, and every nearest-bin lookup
index is within the amplitude array (no out-of-range indexing). -/
theorem C5_clamp_and_entries (s : SpectrumState ℚ) (f : ℚ) (n : ℤ)
    (hf : 0 < f) (hn : 0 ≤ n) (hmax : 0 ≤ s.max_frequency)
    (hne : s.frequency_for_real ≠ [])
    (hlen : s.amplitude_real.length = s.frequency_for_real.length) :
    (get_frequency_contents s f n false).length =
      ((if (n : ℚ) * f > s.max_frequency then ⌊s.max_frequency / f⌋ else n) + 1).toNat ∧
    (∀ i : ℕ, i < (get_frequency_contents s f n false).length →
      (get_frequency_contents s f n false).getD i 0 =
        get_frequency_component s (f * (i : ℚ)) / get_frequency_component s f * 100) ∧
    ∀ g : ℚ, nearIndex s g < s.amplitude_real.length := by
  have hpy : pyInt (s.max_frequency / f) = ⌊s.max_frequency / f⌋ := by
    unfold pyInt
    rw [if_pos (div_nonneg hmax hf.le)]
  refine ⟨?_, ?_, ?_⟩
  · simp only [get_frequency_contents]
    by_cases hcl : (n : ℚ) * f > s.max_frequency
    · rw [if_pos (by exact ⟨by simp, hcl⟩), if_pos hcl, hpy]
      simp
    · rw [if_neg (by intro hx; exact hcl hx.2), if_neg hcl]
      simp
  · intro i hi
    simp only [get_frequency_contents] at hi ⊢
    rw [List.getD_eq_getElem _ _ (by simpa using hi)]
    simp
  · intro g
    rw [hlen]
    exact nearIndex_lt_length s g hne

/-- C5 witness: on the concrete spectrum with `maxFrequency = 3`,
fundamental 2 and requested order 5 the clamp fires
(`5 · 2 > 3`, effective order `⌊3/2⌋ = 1`) and the array has 2 entries. -/
theorem C5_witness :
    (0 : ℚ) < 2 ∧ (get_frequency_contents sampleSpectrumA 2 5 false).length = 2 := by
  refine ⟨by norm_num, ?_⟩
  have h := (C5_clamp_and_entries sampleSpectrumA 2 5 (by norm_num) (by norm_num)
    (by norm_num [sampleSpectrumA]) (by decide) (by decide)).1
  rw [h]
  norm_num [sampleSpectrumA]
  decide

/-- C7: `get_frequency_components` with equal bounds always returns the
one-element list holding `get_frequency_component` of that bound; in
general it returns that single element when the two nearest-bin indices
coincide and the half-open slice of the amplitude array between the two
nearest-bin indices otherwise; and the bin indices used are genuinely the
nearest bins in absolute distance. -/
theorem C7_range_degeneracy (s : SpectrumState ℚ) (a b : ℚ)
    (hne : s.frequency_for_real ≠ []) :
    get_frequency_components s a a = [get_frequency_component s a] ∧
    get_frequency_components s a b =
      (if nearIndex s a = nearIndex s b then [get_frequency_component s a]
       else (s.amplitude_real.drop (nearIndex s a)).take
         (nearIndex s b - nearIndex s a)) ∧
    ∀ i : ℕ, i < s.frequency_for_real.length →
      |s.frequency_for_real.getD (nearIndex s a) 0 - a| ≤
        |s.frequency_for_real.getD i 0 - a| := by
  refine ⟨?_, ?_, ?_⟩
  · simp [get_frequency_components]
  · rfl
  · exact fun i hi => nearIndex_le_dist s a hne i hi

/-- C7 witness: a degenerate range on a concrete spectrum yields exactly the
single nearest-bin amplitude. -/
theorem C7_witness :
    sampleSpectrumA.frequency_for_real ≠ [] ∧
    get_frequency_components sampleSpectrumA 1 1 =
      [get_frequency_component sampleSpectrumA 1] :=
  ⟨by decide, (C7_range_degeneracy sampleSpectrumA 1 1 (by decide)).1⟩

/-- C8: `get_frequency_component` returns the amplitude of the bin whose
center is closest to the query frequency, and among equidistant bins the
one with the lowest index (indices before the chosen one are at strictly
greater distance). -/
theorem C8_nearest_bin (s : SpectrumState ℚ) (f : ℚ)
    (hne : s.frequency_for_real ≠ [])
    (hlen : s.amplitude_real.length = s.frequency_for_real.length) :
    ∃ j : ℕ, j < s.frequency_for_real.length ∧ j < s.amplitude_real.length ∧
      get_frequency_component s f = s.amplitude_real.getD j 0 ∧
      (∀ i : ℕ, i < s.frequency_for_real.length →
        |s.frequency_for_real.getD j 0 - f| ≤ |s.frequency_for_real.getD i 0 - f|) ∧
      ∀ i : ℕ, i < j →
        |s.frequency_for_real.getD j 0 - f| < |s.frequency_for_real.getD i 0 - f| := by
  refine ⟨nearIndex s f, nearIndex_lt_length s f hne,
    by rw [hlen]; exact nearIndex_lt_length s f hne, rfl, ?_, ?_⟩
  · exact fun i hi => nearIndex_le_dist s f hne i hi
  · exact fun i hi => nearIndex_lt_dist_earlier s f hne i hi

/-- C8 witness: the query frequency 1/2 is equidistant from the bins at 0
and 1 of the concrete spectrum; the lookup resolves to a valid bin. -/
theorem C8_witness :
    sampleSpectrumA.frequency_for_real ≠ [] ∧
    ∃ j : ℕ, j < sampleSpectrumA.frequency_for_real.length ∧
      j < sampleSpectrumA.amplitude_real.length ∧
      get_frequency_component sampleSpectrumA (1 / 2) =
        sampleSpectrumA.amplitude_real.getD j 0 ∧
      (∀ i : ℕ, i < sampleSpectrumA.frequency_for_real.length →
        |sampleSpectrumA.frequency_for_real.getD j 0 - 1 / 2| ≤
          |sampleSpectrumA.frequency_for_real.getD i 0 - 1 / 2|) ∧
      ∀ i : ℕ, i < j →
        |sampleSpectrumA.frequency_for_real.getD j 0 - 1 / 2| <
          |sampleSpectrumA.frequency_for_real.getD i 0 - 1 / 2| :=
  ⟨by decide, C8_nearest_bin sampleSpectrumA (1 / 2) (by decide) (by decide)⟩

/-- C10: `from_csv_loader` with any channel selector other than 1 or 2
raises nothing and produces no processor: the Python body falls through and
returns `None`. -/
theorem C10_channel_fallthrough (loader : OscilloCsvLoader) (ch : ℤ)
    (h1 : ch ≠ 1) (h2 : ch ≠ 2) :
    from_csv_loader loader ch = .ok none := by
  simp [from_csv_loader, h1, h2]

/-- C10 witness: channel selectors 0 and 3 on concrete loaders yield
`None` without an error. -/
theorem C10_witness :
    from_csv_loader ⟨[], [], [], false⟩ 0 = .ok none ∧
    from_csv_loader ⟨[1], [2], [3], true⟩ 3 = .ok none :=
  ⟨C10_channel_fallthrough ⟨[], [], [], false⟩ 0 (by decide) (by decide),
    C10_channel_fallthrough ⟨[1], [2], [3], true⟩ 3 (by decide) (by decide)⟩

/-- `fftfreq` produces one bin per sample. -/
theorem length_fftfreq {α : Type} [LinearOrderedField α] (n : ℕ) (d : α) :
    (fftfreq n d).length = n := by
  simp [fftfreq]

/-- The forward transform preserves length, as `numpy.fft.fft` does. -/
theorem length_fftC (x : List ℂ) : (fftC x).length = x.length := by
  simp [fftC]

/-- `getD` after `take`, for an index inside the taken prefix. -/
theorem getD_take_of_lt {α : Type} (l : List α) (n i : ℕ) (d : α)
    (h1 : i < n) (h2 : i < l.length) : (l.take n).getD i d = l.getD i d := by
  rw [List.getD_eq_getElem _ _ (by simp [List.length_take]; omega),
    List.getD_eq_getElem _ _ h2]
  apply List.getElem_take

/-- In-place modification of entry 0 leaves later entries unchanged. -/
theorem modifyHead_getD_succ {α : Type} (g : α → α) (l : List α) (k : ℕ) (d : α) :
    (l.modifyHead g).getD (k + 1) d = l.getD (k + 1) d := by
  cases l <;> simp [List.modifyHead]

/-- In-place modification of entry 0 applies the function to entry 0. -/
theorem modifyHead_getD_zero {α : Type} (g : α → α) (l : List α) (d : α)
    (h : l ≠ []) : (l.modifyHead g).getD 0 d = g (l.getD 0 d) := by
  cases l with
  | nil => exact absurd rfl h
  | cons x t => simp [List.modifyHead]

/-- DC bin of the transform of a constant signal: every twiddle factor is
`exp 0 = 1`, so the bin sums to `N · c`. -/
theorem fftC_replicate_getD_zero (N : ℕ) (c : ℂ) (hN : 0 < N) :
    (fftC (List.replicate N c)).getD 0 0 = (N : ℂ) * c := by
  have hl : (List.replicate N c).length = N := List.length_replicate N c
  rw [List.getD_eq_getElem _ _ (by simpa [length_fftC, hl] using hN)]
  unfold fftC
  rw [List.getElem_ofFn]
  simp [List.get_eq_getElem, List.getElem_replicate, Finset.sum_const,
    Finset.card_univ, nsmul_eq_mul, hl]

/-- C9: after `dft` on `N` samples spanning `T = max(t) - min(t)`, the
sampling time is the span, the sampling period is `T/N`, and the one-sided
frequency and amplitude arrays both have `⌊N/2⌋` entries. -/
theorem C9_sampling_metadata (t v : List ℝ) (hlen : v.length = t.length)
    (hne : t ≠ []) :
    (dft t v).sampling_time = maxD 0 t - minD 0 t ∧
    (dft t v).sampling_period = (maxD 0 t - minD 0 t) / (t.length : ℝ) ∧
    (dft t v).frequency_for_real.length = t.length / 2 ∧
    (dft t v).amplitude_real.length = t.length / 2 := by
  refine ⟨rfl, rfl, ?_, ?_⟩
  · simp only [dft]
    rw [List.length_take, length_fftfreq]
    omega
  · simp only [dft]
    rw [List.length_modifyHead, List.length_map, List.length_take, length_fftC,
      List.length_map, hlen]
    omega

/-- C9 witness: two samples spanning 2 seconds give period 1 and one-element
one-sided arrays. -/
theorem C9_witness :
    ([(0 : ℝ), 2] : List ℝ) ≠ [] ∧
    (dft [(0 : ℝ), 2] [5, 7]).sampling_period =
      (maxD 0 [(0 : ℝ), 2] - minD 0 [(0 : ℝ), 2]) / (([(0 : ℝ), 2] : List ℝ).length : ℝ) ∧
    (dft [(0 : ℝ), 2] [5, 7]).frequency_for_real.length = 1 := by
  have h := C9_sampling_metadata [(0 : ℝ), 2] [5, 7] (by simp) (by simp)
  refine ⟨by simp, h.2.1, ?_⟩
  have := h.2.2.1
  simpa using this

/-- C6: the one-sided amplitudes are the complex magnitudes of the first
half of the spectrum scaled by `2/N`, except the DC bin which is scaled by
`1/N`; consequently a constant waveform of nonnegative value `C` has
`realAmplitudes[0] = C`, not `2C`. -/
theorem C6_amplitude_scaling (t v : List ℝ) (hlen : v.length = t.length)
    (hN : 2 ≤ t.length) :
    ((dft t v).amplitude_real.getD 0 0 =
      Complex.abs ((dft t v).amplitude_complex.getD 0 0) / (t.length : ℝ)) ∧
    (∀ k : ℕ, 1 ≤ k → k < t.length / 2 →
      (dft t v).amplitude_real.getD k 0 =
        Complex.abs ((dft t v).amplitude_complex.getD k 0) * 2 / (t.length : ℝ)) ∧
    ∀ C : ℝ, 0 ≤ C →
      (dft t (List.replicate t.length C)).amplitude_real.getD 0 0 = C := by
  have hhalf : 1 ≤ t.length / 2 := by omega
  have hacl : (fftC (v.map Complex.ofReal)).length = t.length := by
    rw [length_fftC, List.length_map, hlen]
  have htl : ((fftC (v.map Complex.ofReal)).take (t.length / 2)).length =
      t.length / 2 := by
    rw [List.length_take, hacl]
    omega
  have hmapne : (((fftC (v.map Complex.ofReal)).take (t.length / 2)).map
      fun z => Complex.abs z * 2 / (t.length : ℝ)) ≠ [] := by
    apply List.length_pos.mp
    rw [List.length_map, htl]
    omega
  refine ⟨?_, ?_, ?_⟩
  · show ((((fftC (v.map Complex.ofReal)).take (t.length / 2)).map
        fun z => Complex.abs z * 2 / (t.length : ℝ)).modifyHead
        fun x => x / 2).getD 0 0 =
      Complex.abs ((fftC (v.map Complex.ofReal)).getD 0 0) / (t.length : ℝ)
    rw [modifyHead_getD_zero _ _ _ hmapne]
    rw [getD_map_of_lt _ _ 0 0 0 (by rw [htl]; omega)]
    rw [getD_take_of_lt _ _ 0 0 (by omega) (by rw [hacl]; omega)]
    ring
  · intro k hk1 hk2
    obtain ⟨j, rfl⟩ : ∃ j, k = j + 1 := ⟨k - 1, by omega⟩
    show ((((fftC (v.map Complex.ofReal)).take (t.length / 2)).map
        fun z => Complex.abs z * 2 / (t.length : ℝ)).modifyHead
        fun x => x / 2).getD (j + 1) 0 =
      Complex.abs ((fftC (v.map Complex.ofReal)).getD (j + 1) 0) * 2 / (t.length : ℝ)
    rw [modifyHead_getD_succ]
    rw [getD_map_of_lt _ _ (j + 1) 0 0 (by rw [htl]; omega)]
    rw [getD_take_of_lt _ _ (j + 1) 0 (by omega) (by rw [hacl]; omega)]
  · intro C hC
    have hmap : (List.replicate t.length C).map Complex.ofReal =
        List.replicate t.length (C : ℂ) := by
      simp [List.map_replicate]
    have hacl2 : (fftC ((List.replicate t.length C).map Complex.ofReal)).length =
        t.length := by
      rw [length_fftC, List.length_map, List.length_replicate]
    have htl2 : ((fftC ((List.replicate t.length C).map Complex.ofReal)).take
        (t.length / 2)).length = t.length / 2 := by
      rw [List.length_take, hacl2]
      omega
    show ((((fftC ((List.replicate t.length C).map Complex.ofReal)).take
        (t.length / 2)).map
        fun z => Complex.abs z * 2 / (t.length : ℝ)).modifyHead
        fun x => x / 2).getD 0 0 = C
    rw [modifyHead_getD_zero _ _ _ (by
      apply List.length_pos.mp
      rw [List.length_map, htl2]
      omega)]
    rw [getD_map_of_lt _ _ 0 0 0 (by rw [htl2]; omega)]
    rw [getD_take_of_lt _ _ 0 0 (by omega) (by rw [hacl2]; omega)]
    rw [hmap, fftC_replicate_getD_zero t.length (C : ℂ) (by omega)]
    rw [map_mul, Complex.abs_natCast, Complex.abs_ofReal, abs_of_nonneg hC]
    have hne0 : (t.length : ℝ) ≠ 0 := Nat.cast_ne_zero.mpr (by omega)
    field_simp
    ring

/-- C6 witness: a constant waveform of value 1 over four samples has DC
amplitude exactly 1. -/
theorem C6_witness :
    (0 : ℝ) ≤ 1 ∧
    (dft [(0 : ℝ), 1, 2, 3] (List.replicate ([(0 : ℝ), 1, 2, 3] : List ℝ).length 1)).amplitude_real.getD 0 0 = 1 :=
  ⟨by norm_num,
    (C6_amplitude_scaling [(0 : ℝ), 1, 2, 3] [1, 0, 1, 0] (by simp) (by simp)).2.2 1
      (by norm_num)⟩

/-- C1: on any real input (here four samples), the band-reconstruction
method raises: line 391 of oscifft.py combines the two element-wise boolean
conditions with Python's scalar `and`, which evaluates the truth value of a
4-element numpy array and raises `ValueError` instead of masking
element-wise. -/
theorem C1_band_mask_raises :
    get_particular_frequencies_waveform (dft [0, 1, 2, 3] [1, 0, 1, 0]) 0 1 =
      .error "ValueError: truth value of an array is ambiguous" := by
  have hlen : (dft [0, 1, 2, 3] [1, 0, 1, 0]).frequency_for_complex.length = 4 := by
    show (fftfreq ([(0 : ℝ), 1, 2, 3] : List ℝ).length _).length = 4
    rw [length_fftfreq]
    rfl
  have herr : ∀ a b : List Bool, a.length = 4 →
      pyAnd a b = .error "ValueError: truth value of an array is ambiguous" := by
    intro a b ha
    unfold pyAnd npTruthy
    rw [ha]
    norm_num
  simp only [get_particular_frequencies_waveform]
  rw [herr _ _ (by rw [List.length_map, hlen])]
